import Mathlib

/-!
Verification of the lockfree ring-buffer family (SPSC / MPSC / SPMC / MPMC)
and the task executor built on top of them.

The C++ classes are shallowly embedded as Lean state-transition functions.
Indices are the C++ `size_t` counters; they are monotonically increasing
64-bit values whose wraparound is stated never to occur within the correctness
domain, so they are modelled as `Nat` (where the source computes a `size_t`
subtraction `a - b` on the reachable domain `b ≤ a < 2^64` this agrees with
truncated `Nat` subtraction, which is what the model uses).  The slot address
`i & MASK` with `MASK = BufSize - 1` and `BufSize` a power of two equals
`i % BufSize`; the model writes `i % BufSize`.  Atomic loads/stores and the
CAS loops are interpreted in the sequential (single-threaded, happens-before
ordered) semantics the claims quantify over: a load returns the current
value, a CAS succeeds at once since there is no interference.
-/

namespace Lockfree

/-- State of a ring with one write index and one read index
(`SPSC`, `MPSC`, unicast `SPMC`, unicast `MPMC`):
the slot array `buffer_`, `write_pos_` and `read_pos_`.
The slot array is modelled as a total function from slot addresses;
`buffer_{}` value-initializes every slot, modelled by a constant function
at the element type's default value. -/
structure RingState (α : Type) where
  buffer : Nat → α
  write_pos : Nat
  read_pos : Nat

/-- The freshly constructed ring: zeroed indices, value-initialized slots. -/
def RingState.init (α : Type) [Inhabited α] : RingState α :=
  { buffer := fun _ => default, write_pos := 0, read_pos := 0 }

namespace SPSC

/-- `lockfree::SPSC::push` (src/include/queue/spsc.hpp, first revision):
load `write_pos_` relaxed and `read_pos_` acquire; full iff
`current_write >= current_read + BufSize`; otherwise store the value at
`current_write & MASK` and release-store `current_write + 1`. -/
def push (N : Nat) (s : RingState α) (v : α) : Bool × RingState α :=
  if s.write_pos ≥ s.read_pos + N then (false, s)
  else
    (true,
      { buffer := Function.update s.buffer (s.write_pos % N) v
        write_pos := s.write_pos + 1
        read_pos := s.read_pos })

/-- `lockfree::SPSC::pop` (src/include/queue/spsc.hpp, first revision):
empty iff `current_read >= current_write`; otherwise move the slot at
`current_read & MASK` out and release-store `current_read + 1`. -/
def pop (N : Nat) (s : RingState α) : Option α × RingState α :=
  if s.read_pos ≥ s.write_pos then (none, s)
  else
    (some (s.buffer (s.read_pos % N)),
      { s with read_pos := s.read_pos + 1 })

end SPSC

namespace MPSC

/-- `lockfree::MPSC::push` (src/include/queue/mpsc.hpp): the CAS loop, in
sequential semantics.  Full iff `current_write - current_read >= BufSize`
(`size_t` subtraction; on the reachable domain `read ≤ write` it equals
truncated subtraction); otherwise the CAS from `current_write` to
`current_write + 1` succeeds at once (no interference) and the producer
stores the value at `current_write & MASK`. -/
def push (N : Nat) (s : RingState α) (v : α) : Bool × RingState α :=
  if s.write_pos - s.read_pos ≥ N then (false, s)
  else
    (true,
      { buffer := Function.update s.buffer (s.write_pos % N) v
        write_pos := s.write_pos + 1
        read_pos := s.read_pos })

/-- `lockfree::MPSC::pop` (src/include/queue/mpsc.hpp): identical protocol
to `SPSC::pop`. -/
def pop (N : Nat) (s : RingState α) : Option α × RingState α :=
  if s.read_pos ≥ s.write_pos then (none, s)
  else
    (some (s.buffer (s.read_pos % N)),
      { s with read_pos := s.read_pos + 1 })

end MPSC

namespace SPMCu

/-- `lockfree::SPMC<trans::unicast>::push` (src/include/queue/spmc.hpp):
same producer path as `SPSC::push` (full iff
`current_write >= current_read + BufSize`). -/
def push (N : Nat) (s : RingState α) (v : α) : Bool × RingState α :=
  if s.write_pos ≥ s.read_pos + N then (false, s)
  else
    (true,
      { buffer := Function.update s.buffer (s.write_pos % N) v
        write_pos := s.write_pos + 1
        read_pos := s.read_pos })

/-- `lockfree::SPMC<trans::unicast>::pop` (src/include/queue/spmc.hpp): the
claim-via-CAS loop in sequential semantics; empty iff
`current_read >= current_write`, otherwise the CAS from `current_read` to
`current_read + 1` succeeds at once and the claimed slot is moved out. -/
def pop (N : Nat) (s : RingState α) : Option α × RingState α :=
  if s.read_pos ≥ s.write_pos then (none, s)
  else
    (some (s.buffer (s.read_pos % N)),
      { s with read_pos := s.read_pos + 1 })

end SPMCu

namespace MPMCu

/-- `lockfree::MPMC<trans::unicast>::do_push` (src/include/queue/mpmc.hpp):
CAS loop in sequential semantics; full iff
`current_write - current_read >= BufSize` (`size_t` subtraction), otherwise
the reservation CAS succeeds at once, the slot is written and the release
fence issued. -/
def push (N : Nat) (s : RingState α) (v : α) : Bool × RingState α :=
  if s.write_pos - s.read_pos ≥ N then (false, s)
  else
    (true,
      { buffer := Function.update s.buffer (s.write_pos % N) v
        write_pos := s.write_pos + 1
        read_pos := s.read_pos })

/-- `lockfree::MPMC<trans::unicast>::pop` (src/include/queue/mpmc.hpp): CAS
loop in sequential semantics; empty iff `current_read >= current_write`,
otherwise the CAS succeeds at once, the slot is moved out after the acquire
fence. -/
def pop (N : Nat) (s : RingState α) : Option α × RingState α :=
  if s.read_pos ≥ s.write_pos then (none, s)
  else
    (some (s.buffer (s.read_pos % N)),
      { s with read_pos := s.read_pos + 1 })

end MPMCu

/-- A single operation applied to a single-read-index ring in a sequential
(happens-before ordered) history. -/
inductive RingOp (α : Type) where
  | push (v : α)
  | pop

/-- Run a sequential history of operations against a ring, threading the
state and accumulating the successfully pushed values and the successfully
popped values, in order. -/
def runRing (pushFn : RingState α → α → Bool × RingState α)
    (popFn : RingState α → Option α × RingState α) :
    List (RingOp α) → RingState α → List α → List α →
      RingState α × List α × List α
  | [], s, pushed, popped => (s, pushed, popped)
  | RingOp.push v :: rest, s, pushed, popped =>
      let r := pushFn s v
      runRing pushFn popFn rest r.2
        (if r.1 then pushed ++ [v] else pushed) popped
  | RingOp.pop :: rest, s, pushed, popped =>
      let r := popFn s
      match r.1 with
      | some v => runRing pushFn popFn rest r.2 pushed (popped ++ [v])
      | none => runRing pushFn popFn rest r.2 pushed popped

/-- Inductive invariant of a sequential history on a single-read-index ring:
index bounds, the accumulators mirror the indices, the popped values are the
prefix of the pushed values of length `read_pos`, and every still-live slot
holds the value pushed at its index. -/
def RingInv (N : Nat) [Inhabited α] (s : RingState α)
    (pushed popped : List α) : Prop :=
  s.read_pos ≤ s.write_pos ∧
  s.write_pos ≤ s.read_pos + N ∧
  pushed.length = s.write_pos ∧
  popped.length = s.read_pos ∧
  popped = pushed.take s.read_pos ∧
  ∀ k, k < s.write_pos → s.write_pos ≤ k + N →
    s.buffer (k % N) = pushed.getD k default

/-- Shape of a push function whose behaviour on the invariant domain is the
canonical guarded write (shared by all four single-read-index rings). -/
def PushStepOK {α : Type} [Inhabited α] (N : Nat)
    (pushFn : RingState α → α → Bool × RingState α) : Prop :=
  ∀ (s : RingState α) (v : α) (pushed popped : List α),
    RingInv N s pushed popped →
    RingInv N (pushFn s v).2
      (if (pushFn s v).1 then pushed ++ [v] else pushed) popped

/-- Shape of a pop function whose behaviour on the invariant domain is the
canonical guarded read. -/
def PopStepOK {α : Type} [Inhabited α] (N : Nat)
    (popFn : RingState α → Option α × RingState α) : Prop :=
  ∀ (s : RingState α) (pushed popped : List α),
    RingInv N s pushed popped →
    RingInv N (popFn s).2 pushed
      (match (popFn s).1 with
       | some v => popped ++ [v]
       | none => popped)

/-- The scenario schedule: `k` rounds, round `j` pushing the integer `j` and
then popping once. -/
def altOps : Nat → List (RingOp Nat)
  | 0 => []
  | k + 1 => altOps k ++ [RingOp.push k, RingOp.pop]

/-- `SIZE_MAX`, the initial accumulator of the producer's minimum-cursor
scan. -/
def SIZE_MAX : Nat := 2 ^ 64 - 1

/-- State of the broadcast SPMC ring (src/include/queue/spmc.hpp,
`SPMC<T, BufSize, MaxReaders, trans::broadcast>`): slot array, write index,
one read index per reader slot (modelled as a total function of the
caller-supplied reader id; ids `≥ MaxReaders` are out of contract), and the
producer-private cached minimum reader index. -/
structure BState (α : Type) where
  buffer : Nat → α
  write_pos : Nat
  read_positions : Nat → Nat
  min_read_cache : Nat

/-- The freshly constructed broadcast ring: zeroed indices and cache,
value-initialized slots. -/
def BState.init (α : Type) [Inhabited α] : BState α :=
  { buffer := fun _ => default, write_pos := 0
    read_positions := fun _ => 0, min_read_cache := 0 }

namespace SPMCb

/-- The producer's scan loop
`for (i = 0; i < MaxReaders; ++i) if (read_positions_[i] < fresh_min) ...`
with accumulator initialized to `SIZE_MAX`: `minUpTo f K` is the value of
the accumulator after the iterations `i = 0, ..., K-1`. -/
def minUpTo (f : Nat → Nat) : Nat → Nat
  | 0 => SIZE_MAX
  | n + 1 => if f n < minUpTo f n then f n else minUpTo f n

/-- `SPMC<trans::broadcast>::push` (src/include/queue/spmc.hpp): load the
write index relaxed; if the cached minimum would indicate fullness
(`current_write >= min_read_cache_ + BufSize`), re-scan all reader cursors
into `fresh_min`, store it into the cache, and bail out with `false` if it
is still full; otherwise write the slot at `current_write & MASK` and
release-store `current_write + 1`. -/
def push (N K : Nat) (s : BState α) (v : α) : Bool × BState α :=
  if s.write_pos ≥ s.min_read_cache + N then
    let fresh := minUpTo s.read_positions K
    if s.write_pos ≥ fresh + N then
      (false, { s with min_read_cache := fresh })
    else
      (true,
        { buffer := Function.update s.buffer (s.write_pos % N) v
          write_pos := s.write_pos + 1
          read_positions := s.read_positions
          min_read_cache := fresh })
  else
    (true,
      { s with
        buffer := Function.update s.buffer (s.write_pos % N) v
        write_pos := s.write_pos + 1 })

/-- `SPMC<trans::broadcast>::push_overwrite` (src/include/queue/spmc.hpp):
unconditionally overwrite the slot at `current_write & MASK` and
release-store `current_write + 1`; `void` return, no failure path. -/
def push_overwrite (N : Nat) (s : BState α) (v : α) : BState α :=
  { s with
    buffer := Function.update s.buffer (s.write_pos % N) v
    write_pos := s.write_pos + 1 }

/-- `SPMC<trans::broadcast>::pop` (src/include/queue/spmc.hpp): empty iff
`current_read >= current_write`; otherwise read the slot at
`current_read & MASK` by copy (not move) and release-store
`current_read + 1` into this reader's cursor. -/
def pop (N : Nat) (s : BState α) (consumerId : Nat) : Option α × BState α :=
  if s.read_positions consumerId ≥ s.write_pos then (none, s)
  else
    (some (s.buffer (s.read_positions consumerId % N)),
      { s with
        read_positions := Function.update s.read_positions consumerId
          (s.read_positions consumerId + 1) })

/-- `SPMC<trans::broadcast>::pop_overwrite` (src/include/queue/spmc.hpp):
if the consumer has missed data (`current_write > current_read + BufSize`),
clamp this reader's cursor to `current_write - BufSize` and return empty;
otherwise the body of `pop`. -/
def pop_overwrite (N : Nat) (s : BState α) (consumerId : Nat) :
    Option α × BState α :=
  if s.write_pos > s.read_positions consumerId + N then
    (none,
      { s with
        read_positions := Function.update s.read_positions consumerId
          (s.write_pos - N) })
  else if s.read_positions consumerId ≥ s.write_pos then (none, s)
  else
    (some (s.buffer (s.read_positions consumerId % N)),
      { s with
        read_positions := Function.update s.read_positions consumerId
          (s.read_positions consumerId + 1) })

/-- `SPMC<trans::broadcast>::get_read_pos`. -/
def get_read_pos (s : BState α) (consumerId : Nat) : Nat :=
  s.read_positions consumerId

/-- `SPMC<trans::broadcast>::set_read_pos`. -/
def set_read_pos (s : BState α) (consumerId pos : Nat) : BState α :=
  { s with read_positions := Function.update s.read_positions consumerId pos }

/-- `SPMC<trans::broadcast>::fetch_sub_read_pos` (`size_t` subtraction; on
the in-contract domain `val ≤ read_positions_[consumerId]` it equals
truncated subtraction). -/
def fetch_sub_read_pos (s : BState α) (consumerId val : Nat) : BState α :=
  { s with
    read_positions := Function.update s.read_positions consumerId
      (s.read_positions consumerId - val) }

/-- `SPMC<trans::broadcast>::fetch_add_read_pos`. -/
def fetch_add_read_pos (s : BState α) (consumerId val : Nat) : BState α :=
  { s with
    read_positions := Function.update s.read_positions consumerId
      (s.read_positions consumerId + val) }

end SPMCb

/-- A single operation applied to a broadcast SPMC ring in a sequential
history: a producer push, or a pop by the reader with the given
(in-contract, `< K`) identifier. -/
inductive BOp (α : Type) (K : Nat) where
  | push (v : α)
  | pop (i : Fin K)

/-- Run a sequential history against the broadcast SPMC ring, accumulating
the successfully pushed values and, per reader, the successfully popped
values, in order. -/
def runB (N K : Nat) :
    List (BOp α K) → BState α → List α → (Nat → List α) →
      BState α × List α × (Nat → List α)
  | [], s, pushed, popped => (s, pushed, popped)
  | BOp.push v :: rest, s, pushed, popped =>
      let r := SPMCb.push N K s v
      runB N K rest r.2 (if r.1 then pushed ++ [v] else pushed) popped
  | BOp.pop i :: rest, s, pushed, popped =>
      let r := SPMCb.pop N s i.val
      match r.1 with
      | some v =>
          runB N K rest r.2 pushed
            (Function.update popped i.val (popped i.val ++ [v]))
      | none => runB N K rest r.2 pushed popped

/-- Inductive invariant of a sequential non-overwriting history on the
broadcast SPMC ring: the cached minimum under-approximates every in-range
reader cursor, every cursor is within the retained window of the write
index, each reader's popped values are the prefix of the pushed values of
length equal to its cursor, and every still-live slot holds the value
pushed at its index. -/
def BInv (N K : Nat) [Inhabited α] (s : BState α) (pushed : List α)
    (popped : Nat → List α) : Prop :=
  pushed.length = s.write_pos ∧
  (∀ i, i < K → s.min_read_cache ≤ s.read_positions i) ∧
  (∀ i, i < K → s.read_positions i ≤ s.write_pos) ∧
  (∀ i, i < K → s.write_pos ≤ s.read_positions i + N) ∧
  (∀ i, i < K → (popped i).length = s.read_positions i) ∧
  (∀ i, i < K → popped i = pushed.take (s.read_positions i)) ∧
  ∀ k, k < s.write_pos → s.write_pos ≤ k + N →
    s.buffer (k % N) = pushed.getD k default

/-- Fold a list of values into the broadcast ring via `push_overwrite`. -/
def pushOvAll (N : Nat) : BState α → List α → BState α
  | s, [] => s
  | s, v :: rest => pushOvAll N (SPMCb.push_overwrite N s v) rest

/-- Iterate `pop_overwrite` for a reader, collecting the successfully
popped values in order. -/
def popOvMany (N : Nat) (id : Nat) : BState α → Nat → BState α × List α
  | s, 0 => (s, [])
  | s, n + 1 =>
    match SPMCb.pop_overwrite N s id with
    | (some v, s') =>
        let r := popOvMany N id s' n
        (r.1, v :: r.2)
    | (none, s') => popOvMany N id s' n

/-- State of the index-caching SPSC revision
(src/include/queue/spsc.hpp, second revision): the shared atomics plus the
structure-local cached views `local_write_` and `local_read_`. -/
structure CRingState (α : Type) where
  buffer : Nat → α
  write_pos : Nat
  read_pos : Nat
  local_write : Nat
  local_read : Nat

/-- The freshly constructed caching ring: all four indices zero. -/
def CRingState.init (α : Type) [Inhabited α] : CRingState α :=
  { buffer := fun _ => default, write_pos := 0, read_pos := 0
    local_write := 0, local_read := 0 }

namespace CSPSC

/-- Caching `SPSC::push` (src/include/queue/spsc.hpp, second revision):
acquire-load `read_pos_`; full iff `local_write_ >= synced_read + BufSize`;
otherwise write the slot at `local_write_ & MASK`, increment
`local_write_`, release-store it into `write_pos_`. -/
def push (N : Nat) (s : CRingState α) (v : α) : Bool × CRingState α :=
  if s.local_write ≥ s.read_pos + N then (false, s)
  else
    (true,
      { buffer := Function.update s.buffer (s.local_write % N) v
        write_pos := s.local_write + 1
        read_pos := s.read_pos
        local_write := s.local_write + 1
        local_read := s.local_read })

/-- Caching `SPSC::pop` (src/include/queue/spsc.hpp, second revision):
acquire-load `write_pos_`; empty iff `local_read_ >= synced_write`;
otherwise move the slot at `local_read_ & MASK` out, increment
`local_read_`, release-store it into `read_pos_`. -/
def pop (N : Nat) (s : CRingState α) : Option α × CRingState α :=
  if s.local_read ≥ s.write_pos then (none, s)
  else
    (some (s.buffer (s.local_read % N)),
      { s with
        read_pos := s.local_read + 1
        local_read := s.local_read + 1 })

end CSPSC

/-- Observable outcome of one ring operation. -/
inductive RingOut (α : Type) where
  | pushed (ok : Bool)
  | popped (r : Option α)

/-- Run a sequential history against any ring representation, collecting
the observable outcome of every operation, in order. -/
def runOut {σ : Type} (pushFn : σ → α → Bool × σ)
    (popFn : σ → Option α × σ) :
    List (RingOp α) → σ → σ × List (RingOut α)
  | [], s => (s, [])
  | RingOp.push v :: rest, s =>
      let r := pushFn s v
      let t := runOut pushFn popFn rest r.2
      (t.1, RingOut.pushed r.1 :: t.2)
  | RingOp.pop :: rest, s =>
      let r := popFn s
      let t := runOut pushFn popFn rest r.2
      (t.1, RingOut.popped r.1 :: t.2)

/-- Simulation relation between the caching and the plain SPSC: identical
shared state, and the local views in sync with the shared indices (as
sequential operation keeps them, since each operation writes its local
increment straight back to its atomic). -/
def CSim (c : CRingState α) (p : RingState α) : Prop :=
  c.buffer = p.buffer ∧ c.write_pos = p.write_pos ∧ c.read_pos = p.read_pos ∧
  c.local_write = p.write_pos ∧ c.local_read = p.read_pos

namespace Threadpool

/-- Shared state behind the `std::packaged_task` / `std::future` pair
created by `threadpool::submit` (src/unnamed/part_010): the one-shot
completion value — either the task's normal result or its captured
exception, modelled as `Except` — plus a count of how many times the
wrapped invocation has run. -/
structure FutureState (ε ρ : Type) where
  value : Option (Except ε ρ)
  runs : Nat

/-- `std::packaged_task::operator()`: invokes the stored callable (here
`body`, whose C++ execution either returns normally or throws, modelled as
`Except`), captures its result or exception into the shared state, and
itself returns normally — the exception is stored in the future, not
re-thrown out of the wrapper. -/
def packaged_task_run (body : Unit → Except ε ρ) (fut : FutureState ε ρ) :
    FutureState ε ρ × Except ε Unit :=
  ({ value := some (body ()), runs := fut.runs + 1 }, Except.ok ())

/-- `threadpool::submit(f, args...)`: wraps `std::invoke(func, args...)` in
a packaged task and returns the `Task wrapper = [task]() { (*task)(); }`
work item enqueued for the workers. -/
def submit_wrapper (f : α → Except ε ρ) (x : α) :
    FutureState ε ρ → FutureState ε ρ × Except ε Unit :=
  packaged_task_run (fun _ => f x)

/-- One `threadpool::worker` iteration with a popped task: execute it under
`try/catch`; an escaping exception is logged and swallowed, and in either
case the worker stays alive (second component `true`) to execute subsequent
tasks. -/
def worker_run_task
    (task : FutureState ε ρ → FutureState ε ρ × Except ε Unit)
    (fut : FutureState ε ρ) : FutureState ε ρ × Bool :=
  match task fut with
  | (fut', Except.ok _) => (fut', true)
  | (fut', Except.error _) => (fut', true)

/-- A submitted unit of work: the function and its (captured) argument. -/
structure WorkItem (ε ρ α : Type) where
  f : α → Except ε ρ
  arg : α

/-- The worker processing a sequence of submitted work items, each with its
own fresh future: run one item, and continue with the rest only if the
worker survived it. -/
def worker_drain : List (WorkItem ε ρ α) → List (FutureState ε ρ)
  | [] => []
  | w :: rest =>
    match worker_run_task (submit_wrapper w.f w.arg)
        { value := none, runs := 0 } with
    | (fut, true) => fut :: worker_drain rest
    | (fut, false) => [fut]

end Threadpool

/-- State of the broadcast MPMC ring (src/include/queue/mpmc.hpp,
`MPMC<T, BufSize, MaxReaderNum, trans::broadcast>`): slot array, write
index, per-reader cursors; no producer-side cache — the minimum-cursor scan
is performed fresh on every push. -/
structure MBState (α : Type) where
  buffer : Nat → α
  write_pos : Nat
  read_positions : Nat → Nat

/-- The freshly constructed broadcast MPMC ring: zeroed indices,
value-initialized slots. -/
def MBState.init (α : Type) [Inhabited α] : MBState α :=
  { buffer := fun _ => default, write_pos := 0
    read_positions := fun _ => 0 }

namespace MPMCb

/-- `MPMC<trans::broadcast>::do_push` (src/include/queue/mpmc.hpp): CAS
loop in sequential semantics; scan all reader cursors into
`min_reader_index` (accumulator starting at `SIZE_MAX`), full iff
`current_write - min_reader_index >= BufSize` (`size_t` subtraction),
otherwise the reservation CAS succeeds at once and the slot is written. -/
def push (N K : Nat) (s : MBState α) (v : α) : Bool × MBState α :=
  if s.write_pos - SPMCb.minUpTo s.read_positions K ≥ N then (false, s)
  else
    (true,
      { buffer := Function.update s.buffer (s.write_pos % N) v
        write_pos := s.write_pos + 1
        read_positions := s.read_positions })

/-- `MPMC<trans::broadcast>::pop` (src/include/queue/mpmc.hpp): empty iff
`current_read >= current_write`; otherwise
`T value = std::move(buffer_[current_read & MASK])` — unlike the broadcast
SPMC's pop, the slot is read by MOVE, not copy, so `T`'s move constructor
leaves the slot in its moved-from state — then release-store
`current_read + 1` into this reader's cursor.  The element type's
moved-from transformation is the parameter `moved`: the identity for a
trivially copyable `T` (whose move degenerates to a copy), and not the
identity for an ownership-transferring `T` (e.g. a `std::unique_ptr`-like
type, whose moved-from state is empty). -/
def pop (N : Nat) (moved : α → α) (s : MBState α) (consumerId : Nat) :
    Option α × MBState α :=
  if s.read_positions consumerId ≥ s.write_pos then (none, s)
  else
    (some (s.buffer (s.read_positions consumerId % N)),
      { s with
        buffer := Function.update s.buffer
          (s.read_positions consumerId % N)
          (moved (s.buffer (s.read_positions consumerId % N)))
        read_positions := Function.update s.read_positions consumerId
          (s.read_positions consumerId + 1) })

end MPMCb

/-- Two in-flight indices (both addressing live slots of a window of width
`N`) collide on the same slot only if they are equal. -/
theorem mod_ne_of_window {k w N : Nat} (hk : k < w) (hw : w < k + N) :
    k % N ≠ w % N := by
  intro hmod
  have hdvd : N ∣ w - k := (Nat.modEq_iff_dvd' (Nat.le_of_lt hk)).mp hmod
  have hzero : w - k = 0 := Nat.eq_zero_of_dvd_of_lt hdvd (by omega)
  omega

/-- Writing the next value at slot `w % N` extends the live-slot window:
every index in `[w + 1 - N, w + 1)` still addresses the value pushed at
that index. -/
theorem window_extend {α} [Inhabited α] {N w : Nat} {buf : Nat → α}
    {pushed : List α} (hlen : pushed.length = w)
    (hwin : ∀ k, k < w → w ≤ k + N → buf (k % N) = pushed.getD k default)
    (v : α) :
    ∀ k, k < w + 1 → w + 1 ≤ k + N →
      Function.update buf (w % N) v (k % N) = (pushed ++ [v]).getD k default := by
  intro k hk hkN
  rcases Nat.lt_or_ge k w with hlt | hge
  · have hne : k % N ≠ w % N := mod_ne_of_window hlt (by omega)
    rw [Function.update_noteq hne]
    rw [List.getD_append _ _ _ _ (by omega)]
    exact hwin k hlt (by omega)
  · have hkw : k = w := by omega
    subst hkw
    rw [Function.update_same]
    rw [List.getD_append_right _ _ _ _ (by omega), hlen]
    simp

theorem ringInv_init (N : Nat) (α : Type) [Inhabited α] :
    RingInv N (RingState.init α) ([] : List α) [] := by
  refine ⟨Nat.le_refl _, by simp [RingState.init], rfl, rfl, rfl, ?_⟩
  intro k hk
  simp [RingState.init] at hk

/-- The canonical successful-push transition preserves the invariant,
provided the guard let it through only below capacity. -/
theorem ringInv_push_success {α} [Inhabited α] {N : Nat} {s : RingState α}
    {pushed popped : List α} (v : α) (hinv : RingInv N s pushed popped)
    (hroom : s.write_pos < s.read_pos + N) :
    RingInv N
      { buffer := Function.update s.buffer (s.write_pos % N) v
        write_pos := s.write_pos + 1
        read_pos := s.read_pos }
      (pushed ++ [v]) popped := by
  obtain ⟨h1, h2, h3, h4, h5, h6⟩ := hinv
  unfold RingInv
  dsimp only
  refine ⟨by omega, by omega, by simp [h3], h4, ?_, ?_⟩
  · rw [List.take_append_of_le_length (by omega), h5]
  · exact window_extend h3 h6 v

/-- The canonical successful-pop transition: the value obtained is the next
pushed value and the invariant is preserved. -/
theorem ringInv_pop_success {α} [Inhabited α] {N : Nat} {s : RingState α}
    {pushed popped : List α} (hinv : RingInv N s pushed popped)
    (hne : s.read_pos < s.write_pos) :
    s.buffer (s.read_pos % N) = pushed.getD s.read_pos default ∧
    RingInv N { s with read_pos := s.read_pos + 1 }
      pushed (popped ++ [s.buffer (s.read_pos % N)]) := by
  obtain ⟨h1, h2, h3, h4, h5, h6⟩ := hinv
  have hval : s.buffer (s.read_pos % N) = pushed.getD s.read_pos default :=
    h6 s.read_pos hne (by omega)
  refine ⟨hval, ?_⟩
  unfold RingInv
  dsimp only
  refine ⟨by omega, by omega, h3, by simp [h4], ?_, ?_⟩
  · have hrlen : s.read_pos < pushed.length := by omega
    rw [hval, h5, List.getD_eq_getElem _ _ hrlen]
    exact List.take_concat_get' pushed s.read_pos hrlen
  · intro k hk hkN
    exact h6 k hk (by omega)

theorem spsc_pushStepOK {α} [Inhabited α] (N : Nat) :
    PushStepOK (α := α) N (SPSC.push N) := by
  intro s v pushed popped hinv
  by_cases hfull : s.write_pos ≥ s.read_pos + N
  · simp only [SPSC.push, if_pos hfull]
    simpa using hinv
  · simp only [SPSC.push, if_neg hfull]
    simpa using ringInv_push_success v hinv (by omega)

theorem mpsc_pushStepOK {α} [Inhabited α] (N : Nat) :
    PushStepOK (α := α) N (MPSC.push N) := by
  intro s v pushed popped hinv
  have h1 := hinv.1
  by_cases hfull : s.write_pos - s.read_pos ≥ N
  · simp only [MPSC.push, if_pos hfull]
    simpa using hinv
  · simp only [MPSC.push, if_neg hfull]
    simpa using ringInv_push_success v hinv (by omega)

theorem spsc_popStepOK {α} [Inhabited α] (N : Nat) :
    PopStepOK (α := α) N (SPSC.pop N) := by
  intro s pushed popped hinv
  by_cases hempty : s.read_pos ≥ s.write_pos
  · simp only [SPSC.pop, if_pos hempty]
    exact hinv
  · simp only [SPSC.pop, if_neg hempty]
    exact (ringInv_pop_success hinv (by omega)).2

/-- All four pops share one protocol: the claims below transport the `SPSC`
step lemmas to the other rings (the definitions are literally equal). -/
theorem mpsc_pop_eq_spsc_pop (α : Type) (N : Nat) :
    (MPSC.pop (α := α) N) = SPSC.pop N := rfl

theorem spmcu_pop_eq_spsc_pop (α : Type) (N : Nat) :
    (SPMCu.pop (α := α) N) = SPSC.pop N := rfl

theorem mpmcu_pop_eq_spsc_pop (α : Type) (N : Nat) :
    (MPMCu.pop (α := α) N) = SPSC.pop N := rfl

theorem spmcu_push_eq_spsc_push (α : Type) (N : Nat) :
    (SPMCu.push (α := α) N) = SPSC.push N := rfl

theorem mpmcu_push_eq_mpsc_push (α : Type) (N : Nat) :
    (MPMCu.push (α := α) N) = MPSC.push N := rfl

/-- Running any history preserves the invariant, for any pair of step
functions of the canonical shapes. -/
theorem runRing_inv {α : Type} [Inhabited α] {N : Nat}
    {pushFn : RingState α → α → Bool × RingState α}
    {popFn : RingState α → Option α × RingState α}
    (hpush : PushStepOK N pushFn) (hpop : PopStepOK N popFn) :
    ∀ (ops : List (RingOp α)) (s : RingState α) (pushed popped : List α),
      RingInv N s pushed popped →
      RingInv N (runRing pushFn popFn ops s pushed popped).1
        (runRing pushFn popFn ops s pushed popped).2.1
        (runRing pushFn popFn ops s pushed popped).2.2 := by
  intro ops
  induction ops with
  | nil => intro s pushed popped hinv; simpa [runRing] using hinv
  | cons op rest ih =>
    intro s pushed popped hinv
    cases op with
    | push v =>
      have hstep := hpush s v pushed popped hinv
      simpa [runRing] using ih _ _ _ hstep
    | pop =>
      have hstep := hpop s pushed popped hinv
      cases hp : (popFn s).1 with
      | some v =>
        rw [hp] at hstep
        simpa [runRing, hp] using ih _ _ _ hstep
      | none =>
        rw [hp] at hstep
        simpa [runRing, hp] using ih _ _ _ hstep

theorem runRing_append {α : Type}
    (pushFn : RingState α → α → Bool × RingState α)
    (popFn : RingState α → Option α × RingState α)
    (l₁ l₂ : List (RingOp α)) :
    ∀ (s : RingState α) (pushed popped : List α),
      runRing pushFn popFn (l₁ ++ l₂) s pushed popped =
        runRing pushFn popFn l₂
          (runRing pushFn popFn l₁ s pushed popped).1
          (runRing pushFn popFn l₁ s pushed popped).2.1
          (runRing pushFn popFn l₁ s pushed popped).2.2 := by
  induction l₁ with
  | nil => intro s pushed popped; simp [runRing]
  | cons op rest ih =>
    intro s pushed popped
    cases op with
    | push v => simp only [List.cons_append, runRing]; exact ih _ _ _
    | pop =>
      simp only [List.cons_append, runRing]
      cases hp : (popFn s).1 with
      | some v => exact ih _ _ _
      | none => exact ih _ _ _

theorem spsc_alt_run (N : Nat) (hN : 1 ≤ N) :
    ∀ k, ∃ buf : Nat → Nat,
      runRing (SPSC.push N) (SPSC.pop N) (altOps k) (RingState.init Nat) [] [] =
        (⟨buf, k, k⟩, List.range k, List.range k) := by
  intro k
  induction k with
  | zero => exact ⟨fun _ => default, rfl⟩
  | succ k ih =>
    obtain ⟨buf, hbuf⟩ := ih
    refine ⟨Function.update buf (k % N) k, ?_⟩
    rw [altOps, runRing_append, hbuf]
    have hnotfull : ¬ k ≥ k + N := by omega
    have hnotempty : ¬ k ≥ k + 1 := by omega
    simp [runRing, SPSC.push, SPSC.pop, hnotfull, hnotempty, List.range_succ]

theorem mpsc_popStepOK {α} [Inhabited α] (N : Nat) :
    PopStepOK (α := α) N (MPSC.pop N) := by
  rw [mpsc_pop_eq_spsc_pop]
  exact spsc_popStepOK N

theorem spmcu_pushStepOK {α} [Inhabited α] (N : Nat) :
    PushStepOK (α := α) N (SPMCu.push N) := by
  rw [spmcu_push_eq_spsc_push]
  exact spsc_pushStepOK N

theorem spmcu_popStepOK {α} [Inhabited α] (N : Nat) :
    PopStepOK (α := α) N (SPMCu.pop N) := by
  rw [spmcu_pop_eq_spsc_pop]
  exact spsc_popStepOK N

theorem mpmcu_pushStepOK {α} [Inhabited α] (N : Nat) :
    PushStepOK (α := α) N (MPMCu.push N) := by
  rw [mpmcu_push_eq_mpsc_push]
  exact mpsc_pushStepOK N

theorem mpmcu_popStepOK {α} [Inhabited α] (N : Nat) :
    PopStepOK (α := α) N (MPMCu.pop N) := by
  rw [mpmcu_pop_eq_spsc_pop]
  exact spsc_popStepOK N

/-- C1. For the SPSC and MPSC rings operated sequentially, the sequence of
values returned by successful pops equals, in order, a prefix of the
sequence of successfully pushed values; and with `N = 1024`, pushing the
integers `0..9999` interleaved with pops yields the popped sequence exactly
`0, 1, ..., 9999`. -/
theorem C1_sequential_fifo_prefix :
    (∀ (N : Nat) (ops : List (RingOp Nat)),
      (runRing (SPSC.push N) (SPSC.pop N) ops (RingState.init Nat) [] []).2.2 =
        ((runRing (SPSC.push N) (SPSC.pop N) ops
          (RingState.init Nat) [] []).2.1).take
          (runRing (SPSC.push N) (SPSC.pop N) ops
            (RingState.init Nat) [] []).2.2.length) ∧
    (∀ (N : Nat) (ops : List (RingOp Nat)),
      (runRing (MPSC.push N) (MPSC.pop N) ops (RingState.init Nat) [] []).2.2 =
        ((runRing (MPSC.push N) (MPSC.pop N) ops
          (RingState.init Nat) [] []).2.1).take
          (runRing (MPSC.push N) (MPSC.pop N) ops
            (RingState.init Nat) [] []).2.2.length) ∧
    (runRing (SPSC.push 1024) (SPSC.pop 1024) (altOps 10000)
        (RingState.init Nat) [] []).2.2 = List.range 10000 := by
  refine ⟨?_, ?_, ?_⟩
  · intro N ops
    have hinv := runRing_inv (spsc_pushStepOK N) (spsc_popStepOK N) ops
      (RingState.init Nat) [] [] (ringInv_init N Nat)
    obtain ⟨_, _, _, h4, h5, _⟩ := hinv
    rw [h4, h5]
  · intro N ops
    have hinv := runRing_inv (mpsc_pushStepOK N) (mpsc_popStepOK N) ops
      (RingState.init Nat) [] [] (ringInv_init N Nat)
    obtain ⟨_, _, _, h4, h5, _⟩ := hinv
    rw [h4, h5]
  · obtain ⟨buf, hbuf⟩ := spsc_alt_run 1024 (by omega) 10000
    rw [hbuf]

/-- C4. For the SPSC, MPSC, and the unicast SPMC / MPMC rings, every
sequential history from the initial state (both indices zero) keeps
`read_pos ≤ write_pos ≤ read_pos + N`, and `write_pos - read_pos` equals
the occupancy: the number of successfully pushed values minus the number of
successfully popped values. -/
theorem C4_index_bounds_and_occupancy :
    ∀ (N : Nat) (ops : List (RingOp Nat)),
      (let r := runRing (SPSC.push N) (SPSC.pop N) ops (RingState.init Nat) [] []
       r.1.read_pos ≤ r.1.write_pos ∧ r.1.write_pos ≤ r.1.read_pos + N ∧
        r.1.write_pos - r.1.read_pos = r.2.1.length - r.2.2.length) ∧
      (let r := runRing (MPSC.push N) (MPSC.pop N) ops (RingState.init Nat) [] []
       r.1.read_pos ≤ r.1.write_pos ∧ r.1.write_pos ≤ r.1.read_pos + N ∧
        r.1.write_pos - r.1.read_pos = r.2.1.length - r.2.2.length) ∧
      (let r := runRing (SPMCu.push N) (SPMCu.pop N) ops (RingState.init Nat) [] []
       r.1.read_pos ≤ r.1.write_pos ∧ r.1.write_pos ≤ r.1.read_pos + N ∧
        r.1.write_pos - r.1.read_pos = r.2.1.length - r.2.2.length) ∧
      (let r := runRing (MPMCu.push N) (MPMCu.pop N) ops (RingState.init Nat) [] []
       r.1.read_pos ≤ r.1.write_pos ∧ r.1.write_pos ≤ r.1.read_pos + N ∧
        r.1.write_pos - r.1.read_pos = r.2.1.length - r.2.2.length) := by
  intro N ops
  refine ⟨?_, ?_, ?_, ?_⟩
  · have h := runRing_inv (spsc_pushStepOK N) (spsc_popStepOK N) ops
      (RingState.init Nat) [] [] (ringInv_init N Nat)
    obtain ⟨h1, h2, h3, h4, _, _⟩ := h
    exact ⟨h1, h2, by omega⟩
  · have h := runRing_inv (mpsc_pushStepOK N) (mpsc_popStepOK N) ops
      (RingState.init Nat) [] [] (ringInv_init N Nat)
    obtain ⟨h1, h2, h3, h4, _, _⟩ := h
    exact ⟨h1, h2, by omega⟩
  · have h := runRing_inv (spmcu_pushStepOK N) (spmcu_popStepOK N) ops
      (RingState.init Nat) [] [] (ringInv_init N Nat)
    obtain ⟨h1, h2, h3, h4, _, _⟩ := h
    exact ⟨h1, h2, by omega⟩
  · have h := runRing_inv (mpmcu_pushStepOK N) (mpmcu_popStepOK N) ops
      (RingState.init Nat) [] [] (ringInv_init N Nat)
    obtain ⟨h1, h2, h3, h4, _, _⟩ := h
    exact ⟨h1, h2, by omega⟩

namespace SPMCb

theorem minUpTo_le {f : Nat → Nat} {K i : Nat} (hi : i < K) :
    minUpTo f K ≤ f i := by
  induction K with
  | zero => omega
  | succ K ih =>
    rcases Nat.lt_or_ge i K with hiK | hiK
    · have := ih hiK
      unfold minUpTo
      split <;> omega
    · have hik : i = K := by omega
      subst hik
      unfold minUpTo
      split <;> omega

theorem minUpTo_attained (f : Nat → Nat) :
    ∀ K, minUpTo f K = SIZE_MAX ∨ ∃ i, i < K ∧ minUpTo f K = f i := by
  intro K
  induction K with
  | zero => exact Or.inl rfl
  | succ K ih =>
    unfold minUpTo
    split
    · exact Or.inr ⟨K, by omega, rfl⟩
    · rcases ih with h | ⟨i, hi, hfi⟩
      · exact Or.inl h
      · exact Or.inr ⟨i, by omega, hfi⟩

end SPMCb

theorem minUpTo_exists_eq {f : Nat → Nat} {K : Nat} (hK : 0 < K)
    (hb : f 0 ≤ SIZE_MAX) :
    ∃ i, i < K ∧ SPMCb.minUpTo f K = f i := by
  rcases SPMCb.minUpTo_attained f K with h | ⟨i, hi, hfi⟩
  · have h0 : SPMCb.minUpTo f K ≤ f 0 := SPMCb.minUpTo_le hK
    exact ⟨0, hK, by omega⟩
  · exact ⟨i, hi, hfi⟩

theorem bInv_init (N K : Nat) (α : Type) [Inhabited α] :
    BInv N K (BState.init α) ([] : List α) (fun _ => []) := by
  refine ⟨rfl, ?_, ?_, ?_, ?_, ?_, ?_⟩ <;>
    intro k hk <;> simp [BState.init] at hk ⊢

theorem bInv_push (N K : Nat) {α} [Inhabited α] {s : BState α}
    {pushed : List α} {popped : Nat → List α} (v : α)
    (hinv : BInv N K s pushed popped) :
    BInv N K (SPMCb.push N K s v).2
      (if (SPMCb.push N K s v).1 then pushed ++ [v] else pushed) popped := by
  obtain ⟨h1, h2, h3, h4, h5, h6, h7⟩ := hinv
  by_cases hslow : s.write_pos ≥ s.min_read_cache + N
  · by_cases hfull : s.write_pos ≥ SPMCb.minUpTo s.read_positions K + N
    · have hp : SPMCb.push N K s v =
          (false, { s with min_read_cache := SPMCb.minUpTo s.read_positions K }) := by
        unfold SPMCb.push
        rw [if_pos hslow, if_pos hfull]
      rw [hp]
      dsimp only
      rw [if_neg (by simp)]
      refine ⟨h1, ?_, h3, h4, h5, h6, h7⟩
      intro i hi
      exact SPMCb.minUpTo_le hi
    · have hp : SPMCb.push N K s v =
          (true,
            { buffer := Function.update s.buffer (s.write_pos % N) v
              write_pos := s.write_pos + 1
              read_positions := s.read_positions
              min_read_cache := SPMCb.minUpTo s.read_positions K }) := by
        unfold SPMCb.push
        rw [if_pos hslow, if_neg hfull]
      rw [hp]
      dsimp only
      rw [if_pos rfl]
      unfold BInv
      dsimp only
      refine ⟨by simp [h1], ?_, ?_, ?_, h5, ?_, ?_⟩
      · intro i hi
        exact SPMCb.minUpTo_le hi
      · intro i hi
        exact Nat.le_trans (h3 i hi) (by omega)
      · intro i hi
        have := SPMCb.minUpTo_le (f := s.read_positions) hi
        omega
      · intro i hi
        rw [List.take_append_of_le_length (by have := h3 i hi; omega)]
        exact h6 i hi
      · exact window_extend h1 h7 v
  · have hp : SPMCb.push N K s v =
        (true,
          { s with
            buffer := Function.update s.buffer (s.write_pos % N) v
            write_pos := s.write_pos + 1 }) := by
      unfold SPMCb.push
      rw [if_neg hslow]
    rw [hp]
    dsimp only
    rw [if_pos rfl]
    unfold BInv
    dsimp only
    refine ⟨by simp [h1], h2, ?_, ?_, h5, ?_, ?_⟩
    · intro i hi
      exact Nat.le_trans (h3 i hi) (by omega)
    · intro i hi
      have := h2 i hi
      omega
    · intro i hi
      rw [List.take_append_of_le_length (by have := h3 i hi; omega)]
      exact h6 i hi
    · exact window_extend h1 h7 v

theorem bInv_pop (N K : Nat) {α} [Inhabited α] {s : BState α}
    {pushed : List α} {popped : Nat → List α} (i : Fin K)
    (hinv : BInv N K s pushed popped) :
    BInv N K (SPMCb.pop N s i.val).2 pushed
      (match (SPMCb.pop N s i.val).1 with
       | some v => Function.update popped i.val (popped i.val ++ [v])
       | none => popped) := by
  obtain ⟨h1, h2, h3, h4, h5, h6, h7⟩ := hinv
  unfold SPMCb.pop
  by_cases hempty : s.read_positions i.val ≥ s.write_pos
  · simp only [if_pos hempty]
    exact ⟨h1, h2, h3, h4, h5, h6, h7⟩
  · simp only [if_neg hempty]
    have hlt : s.read_positions i.val < s.write_pos := by omega
    have hval : s.buffer (s.read_positions i.val % N) =
        pushed.getD (s.read_positions i.val) default :=
      h7 _ hlt (by have := h4 i.val i.isLt; omega)
    unfold BInv
    dsimp only
    refine ⟨h1, ?_, ?_, ?_, ?_, ?_, h7⟩
    · intro j hj
      by_cases heq : j = i.val
      · subst heq
        rw [Function.update_same]
        have := h2 _ hj
        omega
      · rw [Function.update_noteq heq]
        exact h2 j hj
    · intro j hj
      by_cases heq : j = i.val
      · subst heq
        rw [Function.update_same]
        omega
      · rw [Function.update_noteq heq]
        exact h3 j hj
    · intro j hj
      by_cases heq : j = i.val
      · subst heq
        rw [Function.update_same]
        have := h4 _ hj
        omega
      · rw [Function.update_noteq heq]
        have := h4 j hj
        omega
    · intro j hj
      by_cases heq : j = i.val
      · subst heq
        rw [Function.update_same, Function.update_same]
        simp [h5 _ hj]
      · rw [Function.update_noteq heq, Function.update_noteq heq]
        exact h5 j hj
    · intro j hj
      by_cases heq : j = i.val
      · subst heq
        rw [Function.update_same, Function.update_same]
        have hrlen : s.read_positions i.val < pushed.length := by omega
        rw [h6 _ hj, hval, List.getD_eq_getElem _ _ hrlen]
        exact List.take_concat_get' pushed _ hrlen
      · rw [Function.update_noteq heq, Function.update_noteq heq]
        exact h6 j hj

theorem runB_inv {α : Type} [Inhabited α] (N K : Nat) :
    ∀ (ops : List (BOp α K)) (s : BState α) (pushed : List α)
      (popped : Nat → List α),
      BInv N K s pushed popped →
      BInv N K (runB N K ops s pushed popped).1
        (runB N K ops s pushed popped).2.1
        (runB N K ops s pushed popped).2.2 := by
  intro ops
  induction ops with
  | nil => intro s pushed popped hinv; simpa [runB] using hinv
  | cons op rest ih =>
    intro s pushed popped hinv
    cases op with
    | push v =>
      have hstep := bInv_push N K v hinv
      simpa [runB] using ih _ _ _ hstep
    | pop i =>
      have hstep := bInv_pop N K i hinv
      cases hp : (SPMCb.pop N s i.val).1 with
      | some v =>
        rw [hp] at hstep
        simpa [runB, hp] using ih _ _ _ hstep
      | none =>
        rw [hp] at hstep
        simpa [runB, hp] using ih _ _ _ hstep

/-- C2. The claim holds for the broadcast SPMC ring — its `pop` reads the
slot by copy, leaving the buffer and write index unchanged, and in every
sequential non-overwriting history each in-range reader observes exactly
the push order — but fails on the code for the broadcast MPMC ring:
`MPMC<trans::broadcast>::pop` reads the slot by `std::move`, not by copy.
For a trivially copyable element type the move degenerates to a copy and
the buffer is indeed unchanged (third conjunct), but for a movable,
ownership-transferring element type (here `Option Nat` with moved-from
state `none`, as for a `std::unique_ptr`-like `T`): after one push of
`some 7` into a two-reader ring, reader 0's pop returns the pushed value,
and reader 1's subsequent pop of the same slot returns the moved-from
`none` instead of the pushed value — reader 1 does not observe the push
order (fourth conjunct, the failing input). -/
theorem C2_mpmc_broadcast_pop_moves_slot :
    (∀ (α : Type) (N : Nat) (s : BState α) (id : Nat),
      (SPMCb.pop N s id).2.buffer = s.buffer ∧
      (SPMCb.pop N s id).2.write_pos = s.write_pos) ∧
    (∀ (N K : Nat) (ops : List (BOp Nat K)) (i : Fin K),
      (runB N K ops (BState.init Nat) [] (fun _ => [])).2.2 i.val =
        ((runB N K ops (BState.init Nat) [] (fun _ => [])).2.1).take
          ((runB N K ops (BState.init Nat) [] (fun _ => [])).1.read_positions
            i.val)) ∧
    (∀ (α : Type) (N : Nat) (s : MBState α) (id : Nat),
      (MPMCb.pop N (fun v => v) s id).2.buffer = s.buffer) ∧
    ((MPMCb.pop 2 (fun _ => (none : Option Nat))
        (MPMCb.push 2 2 (MBState.init (Option Nat)) (some 7)).2 0).1 =
      some (some 7) ∧
     (MPMCb.pop 2 (fun _ => (none : Option Nat))
        (MPMCb.pop 2 (fun _ => (none : Option Nat))
          (MPMCb.push 2 2 (MBState.init (Option Nat)) (some 7)).2 0).2 1).1 =
      some none) := by
  refine ⟨?_, ?_, ?_, ?_⟩
  · intro α N s id
    unfold SPMCb.pop
    split
    · exact ⟨rfl, rfl⟩
    · exact ⟨rfl, rfl⟩
  · intro N K ops i
    have hinv := runB_inv N K ops (BState.init Nat) [] (fun _ => [])
      (bInv_init N K Nat)
    obtain ⟨_, _, _, _, _, h6, _⟩ := hinv
    exact h6 i.val i.isLt
  · intro α N s id
    unfold MPMCb.pop
    split
    · rfl
    · exact Function.update_eq_self _ _
  · exact ⟨by decide, by decide⟩

/-- C3. For the broadcast SPMC ring, `pop_overwrite id` detects fall-behind
exactly when `write > read id + N`: in that case it clamps `read id` to
`write - N` and returns empty, and otherwise it behaves exactly like `pop`.
Concretely, with `N = 8`, after 100 `push_overwrite` calls with values
`0..99` a fresh reader's first `pop_overwrite` returns empty with its
cursor jumped to `92`, and its subsequent pops return `92..99` in order. -/
theorem C3_pop_overwrite_clamp :
    (∀ (α : Type) (N : Nat) (s : BState α) (id : Nat),
      s.write_pos ≤ s.read_positions id + N →
      SPMCb.pop_overwrite N s id = SPMCb.pop N s id) ∧
    (∀ (α : Type) (N : Nat) (s : BState α) (id : Nat),
      s.write_pos > s.read_positions id + N →
      SPMCb.pop_overwrite N s id =
        (none,
          { s with
            read_positions := Function.update s.read_positions id
              (s.write_pos - N) })) ∧
    ((SPMCb.pop_overwrite 8
        (pushOvAll 8 (BState.init Nat) (List.range 100)) 0).1 = none ∧
      (SPMCb.pop_overwrite 8
        (pushOvAll 8 (BState.init Nat) (List.range 100)) 0).2.read_positions 0
        = 92 ∧
      (popOvMany 8 0
        (SPMCb.pop_overwrite 8
          (pushOvAll 8 (BState.init Nat) (List.range 100)) 0).2 8).2 =
        [92, 93, 94, 95, 96, 97, 98, 99]) := by
  refine ⟨?_, ?_, ?_⟩
  · intro α N s id h
    unfold SPMCb.pop_overwrite SPMCb.pop
    rw [if_neg (by omega)]
  · intro α N s id h
    unfold SPMCb.pop_overwrite
    rw [if_pos h]
  · refine ⟨by decide, by decide, by decide⟩

/-- Witness for C3: the no-fall-behind clause applied to the empty fresh
ring, and the clamp clause applied to a capacity-8 ring whose producer is
10 ahead of reader 0. -/
theorem C3_pop_overwrite_clamp_witness :
    SPMCb.pop_overwrite 8 (BState.init Nat) 0 =
      SPMCb.pop 8 (BState.init Nat) 0 ∧
    SPMCb.pop_overwrite 8
      { buffer := fun _ => (0 : Nat), write_pos := 10
        read_positions := fun _ => 0, min_read_cache := 0 } 0 =
      (none,
        { buffer := fun _ => (0 : Nat), write_pos := 10
          read_positions := Function.update (fun _ => (0 : Nat)) 0 2
          min_read_cache := 0 }) :=
  ⟨C3_pop_overwrite_clamp.1 Nat 8 (BState.init Nat) 0 (by decide),
    C3_pop_overwrite_clamp.2.1 Nat 8
      { buffer := fun _ => (0 : Nat), write_pos := 10
        read_positions := fun _ => 0, min_read_cache := 0 } 0 (by decide)⟩

/-- C5. For the broadcast SPMC ring (with the producer-side cache
under-approximating every reader cursor, as every reachable state without
explicit cursor rewinds satisfies, and 64-bit cursors), `push` returns
`false` exactly when the ring is full against a fresh scan of the reader
cursors — `∃ i < K` with `read i + N ≤ write` — so it never fails when a
fresh scan would show free space; and it re-scans (touches the cache) only
when the cached minimum would indicate fullness. -/
theorem C5_push_full_iff_fresh_scan :
    ∀ (α : Type) (N K : Nat) (s : BState α) (v : α),
      0 < K →
      (∀ i, i < K → s.min_read_cache ≤ s.read_positions i) →
      (∀ i, i < K → s.read_positions i ≤ SIZE_MAX) →
      (((SPMCb.push N K s v).1 = false ↔
         ∃ i, i < K ∧ s.read_positions i + N ≤ s.write_pos) ∧
       (s.write_pos < s.min_read_cache + N →
         (SPMCb.push N K s v).2.min_read_cache = s.min_read_cache)) := by
  intro α N K s v hK hcache hbound
  constructor
  · by_cases hslow : s.write_pos ≥ s.min_read_cache + N
    · by_cases hfull : s.write_pos ≥ SPMCb.minUpTo s.read_positions K + N
      · have hp : (SPMCb.push N K s v).1 = false := by
          unfold SPMCb.push
          rw [if_pos hslow, if_pos hfull]
        rw [hp]
        simp only [true_iff]
        obtain ⟨i, hi, hmin⟩ := minUpTo_exists_eq hK (hbound 0 hK)
        exact ⟨i, hi, by omega⟩
      · have hp : (SPMCb.push N K s v).1 = true := by
          unfold SPMCb.push
          rw [if_pos hslow, if_neg hfull]
        rw [hp]
        simp only [Bool.true_eq_false, false_iff]
        rintro ⟨i, hi, hfree⟩
        have := SPMCb.minUpTo_le (f := s.read_positions) hi
        omega
    · have hp : (SPMCb.push N K s v).1 = true := by
        unfold SPMCb.push
        rw [if_neg hslow]
      rw [hp]
      simp only [Bool.true_eq_false, false_iff]
      rintro ⟨i, hi, hfree⟩
      have := hcache i hi
      omega
  · intro hfast
    unfold SPMCb.push
    rw [if_neg (by omega)]

/-- Witness for C5: a capacity-2, one-reader broadcast ring whose producer
is 2 ahead of the (never-popped) reader cursor; push fails. -/
theorem C5_push_full_iff_fresh_scan_witness :
    (SPMCb.push 2 1
      { buffer := fun _ => (0 : Nat), write_pos := 2
        read_positions := fun _ => 0, min_read_cache := 0 } 5).1 = false :=
  ((C5_push_full_iff_fresh_scan Nat 2 1
    { buffer := fun _ => (0 : Nat), write_pos := 2
      read_positions := fun _ => 0, min_read_cache := 0 } 5
    (by decide)
    (fun i _ => Nat.zero_le _)
    (fun i _ => Nat.zero_le _)).1).mpr ⟨0, by decide, by decide⟩

/-- C6. For the broadcast SPMC ring, `push_overwrite` is infallible: for
every state, regardless of how far behind any reader cursor is, it writes
the value to slot `write mod N`, advances the write index by exactly one,
and never fails or stalls on reader progress (there is no failure path: the
result is a plain state, never an error). -/
theorem C6_push_overwrite_infallible :
    ∀ (α : Type) (N : Nat) (s : BState α) (v : α),
      (SPMCb.push_overwrite N s v).write_pos = s.write_pos + 1 ∧
      (SPMCb.push_overwrite N s v).buffer (s.write_pos % N) = v ∧
      (SPMCb.push_overwrite N s v).buffer =
        Function.update s.buffer (s.write_pos % N) v ∧
      (SPMCb.push_overwrite N s v).read_positions = s.read_positions ∧
      (SPMCb.push_overwrite N s v).min_read_cache = s.min_read_cache := by
  intro α N s v
  exact ⟨rfl, Function.update_same _ _ _, rfl, rfl, rfl⟩

/-- C7. Reclaim round-trip on the broadcast SPMC ring: if reader `id` has
just completed a successful `pop id` returning `v`, then
`fetch_sub_read_pos id 1` followed by `pop id` (no intervening operations)
returns `v` again, and ends in the same state again. -/
theorem C7_reclaim_roundtrip {α : Type} (N : Nat) (s : BState α)
    (id : Nat) (v : α) (s' : BState α)
    (h : SPMCb.pop N s id = (some v, s')) :
    SPMCb.pop N (SPMCb.fetch_sub_read_pos s' id 1) id = (some v, s') := by
  unfold SPMCb.pop at h
  by_cases hg : s.read_positions id ≥ s.write_pos
  · rw [if_pos hg] at h
    simp at h
  · rw [if_neg hg] at h
    rw [Prod.mk.injEq] at h
    obtain ⟨h1, h2⟩ := h
    have hv : s.buffer (s.read_positions id % N) = v := Option.some.inj h1
    subst h2
    unfold SPMCb.fetch_sub_read_pos SPMCb.pop
    simp only [Function.update_same, Function.update_idem, Nat.add_sub_cancel]
    rw [if_neg (by simpa using hg)]
    simp [hv]

/-- Witness for C7: a ring of capacity 2 holding one value `7`; the pop,
rewind, re-pop round-trip returns `7` again. -/
theorem C7_reclaim_roundtrip_witness :
    SPMCb.pop 2
      (SPMCb.fetch_sub_read_pos
        { buffer := fun _ => 7, write_pos := 1
          read_positions := Function.update (fun _ => (0 : Nat)) 0 1
          min_read_cache := 0 } 0 1) 0 =
    (some 7,
      { buffer := fun _ => (7 : Nat), write_pos := 1
        read_positions := Function.update (fun _ => (0 : Nat)) 0 1
        min_read_cache := 0 }) :=
  C7_reclaim_roundtrip 2
    { buffer := fun _ => 7, write_pos := 1
      read_positions := fun _ => 0, min_read_cache := 0 } 0 7 _ rfl

theorem csim_push {α} (N : Nat) {c : CRingState α} {p : RingState α}
    (hsim : CSim c p) (v : α) :
    (CSPSC.push N c v).1 = (SPSC.push N p v).1 ∧
    CSim (CSPSC.push N c v).2 (SPSC.push N p v).2 := by
  obtain ⟨hb, hw, hr, hlw, hlr⟩ := hsim
  have hc : c.local_write ≥ c.read_pos + N ↔ p.write_pos ≥ p.read_pos + N := by
    rw [hlw, hr]
  unfold CSPSC.push SPSC.push
  by_cases hfull : p.write_pos ≥ p.read_pos + N
  · rw [if_pos (hc.mpr hfull), if_pos hfull]
    exact ⟨rfl, hb, hw, hr, hlw, hlr⟩
  · rw [if_neg (fun hcg => hfull (hc.mp hcg)), if_neg hfull]
    exact ⟨rfl, by rw [hb, hlw], by rw [hlw], hr, by rw [hlw], hlr⟩

theorem csim_pop {α} (N : Nat) {c : CRingState α} {p : RingState α}
    (hsim : CSim c p) :
    (CSPSC.pop N c).1 = (SPSC.pop N p).1 ∧
    CSim (CSPSC.pop N c).2 (SPSC.pop N p).2 := by
  obtain ⟨hb, hw, hr, hlw, hlr⟩ := hsim
  have hc : c.local_read ≥ c.write_pos ↔ p.read_pos ≥ p.write_pos := by
    rw [hlr, hw]
  unfold CSPSC.pop SPSC.pop
  by_cases hempty : p.read_pos ≥ p.write_pos
  · rw [if_pos (hc.mpr hempty), if_pos hempty]
    exact ⟨rfl, hb, hw, hr, hlw, hlr⟩
  · rw [if_neg (fun hcg => hempty (hc.mp hcg)), if_neg hempty]
    exact ⟨by rw [hb, hlr], hb, hw, by rw [hlr], hlw, by rw [hlr]⟩

theorem runOut_csim {α : Type} (N : Nat) :
    ∀ (ops : List (RingOp α)) (c : CRingState α) (p : RingState α),
      CSim c p →
      (runOut (CSPSC.push N) (CSPSC.pop N) ops c).2 =
        (runOut (SPSC.push N) (SPSC.pop N) ops p).2 ∧
      CSim (runOut (CSPSC.push N) (CSPSC.pop N) ops c).1
        (runOut (SPSC.push N) (SPSC.pop N) ops p).1 := by
  intro ops
  induction ops with
  | nil => intro c p hsim; exact ⟨rfl, hsim⟩
  | cons op rest ih =>
    intro c p hsim
    cases op with
    | push v =>
      obtain ⟨hout, hsim'⟩ := csim_push N hsim v
      obtain ⟨ihout, ihsim⟩ := ih _ _ hsim'
      refine ⟨?_, by simpa [runOut] using ihsim⟩
      simp only [runOut, hout, ihout]
    | pop =>
      obtain ⟨hout, hsim'⟩ := csim_pop N hsim
      obtain ⟨ihout, ihsim⟩ := ih _ _ hsim'
      refine ⟨?_, by simpa [runOut] using ihsim⟩
      simp only [runOut, hout, ihout]

/-- C8. The index-caching SPSC revision is observationally equivalent to
the plain SPSC: starting from the respective constructed states, every
sequence of push and pop calls produces identical outcomes (push booleans,
popped values and empties) and identical final write index, read index and
buffer contents. -/
theorem C8_cached_spsc_observational_equivalence
    (α : Type) [Inhabited α] (N : Nat) (ops : List (RingOp α)) :
    (runOut (CSPSC.push N) (CSPSC.pop N) ops (CRingState.init α)).2 =
      (runOut (SPSC.push N) (SPSC.pop N) ops (RingState.init α)).2 ∧
    (runOut (CSPSC.push N) (CSPSC.pop N) ops (CRingState.init α)).1.buffer =
      (runOut (SPSC.push N) (SPSC.pop N) ops (RingState.init α)).1.buffer ∧
    (runOut (CSPSC.push N) (CSPSC.pop N) ops (CRingState.init α)).1.write_pos =
      (runOut (SPSC.push N) (SPSC.pop N) ops (RingState.init α)).1.write_pos ∧
    (runOut (CSPSC.push N) (CSPSC.pop N) ops (CRingState.init α)).1.read_pos =
      (runOut (SPSC.push N) (SPSC.pop N) ops (RingState.init α)).1.read_pos := by
  obtain ⟨hout, hb, hw, hr, _, _⟩ :=
    runOut_csim N ops (CRingState.init α) (RingState.init α)
      ⟨rfl, rfl, rfl, rfl, rfl⟩
  exact ⟨hout, hb, hw, hr⟩

/-- C9. For the task executor, running the work item that `submit f x`
enqueues invokes `f x` exactly once and fulfills the completion handle with
its outcome — the normal result or the thrown exception (`Except.error`),
which is therefore propagated to the submitter and not lost — and the
worker survives (stays alive) to execute subsequent tasks: draining any
sequence of submitted items fulfills every item's handle with its own
task's outcome, each invoked exactly once. -/
theorem C9_submit_fulfills_handle_and_worker_survives :
    (∀ (ε ρ α : Type) (f : α → Except ε ρ) (x : α),
      Threadpool.worker_run_task (Threadpool.submit_wrapper f x)
        { value := none, runs := 0 } =
        ({ value := some (f x), runs := 1 }, true)) ∧
    (∀ (ε ρ α : Type) (items : List (Threadpool.WorkItem ε ρ α)),
      Threadpool.worker_drain items =
        items.map (fun w => { value := some (w.f w.arg), runs := 1 })) := by
  constructor
  · intro ε ρ α f x
    rfl
  · intro ε ρ α items
    induction items with
    | nil => rfl
    | cons w rest ih =>
      simp only [Threadpool.worker_drain, Threadpool.worker_run_task,
        Threadpool.submit_wrapper, Threadpool.packaged_task_run, List.map_cons]
      rw [ih]

/-- C10. Failure atomicity at the public interface: for every ring variant,
a push that returns `false` writes no slot and leaves the write index and
all read indices/cursors unchanged (for SPSC/MPSC/unicast rings and the
broadcast MPMC the entire state is unchanged; for the broadcast SPMC only
the producer-private min-cursor cache may be refreshed), and a pop that
returns empty leaves the entire state — write index, read cursors and
buffer — unchanged. -/
theorem C10_failure_atomicity :
    (∀ (α : Type) (N : Nat) (s : RingState α) (v : α),
      (SPSC.push N s v).1 = false → (SPSC.push N s v).2 = s) ∧
    (∀ (α : Type) (N : Nat) (s : RingState α),
      (SPSC.pop N s).1 = none → (SPSC.pop N s).2 = s) ∧
    (∀ (α : Type) (N : Nat) (s : RingState α) (v : α),
      (MPSC.push N s v).1 = false → (MPSC.push N s v).2 = s) ∧
    (∀ (α : Type) (N : Nat) (s : RingState α),
      (MPSC.pop N s).1 = none → (MPSC.pop N s).2 = s) ∧
    (∀ (α : Type) (N : Nat) (s : RingState α) (v : α),
      (SPMCu.push N s v).1 = false → (SPMCu.push N s v).2 = s) ∧
    (∀ (α : Type) (N : Nat) (s : RingState α),
      (SPMCu.pop N s).1 = none → (SPMCu.pop N s).2 = s) ∧
    (∀ (α : Type) (N : Nat) (s : RingState α) (v : α),
      (MPMCu.push N s v).1 = false → (MPMCu.push N s v).2 = s) ∧
    (∀ (α : Type) (N : Nat) (s : RingState α),
      (MPMCu.pop N s).1 = none → (MPMCu.pop N s).2 = s) ∧
    (∀ (α : Type) (N K : Nat) (s : BState α) (v : α),
      (SPMCb.push N K s v).1 = false →
        (SPMCb.push N K s v).2.buffer = s.buffer ∧
        (SPMCb.push N K s v).2.write_pos = s.write_pos ∧
        (SPMCb.push N K s v).2.read_positions = s.read_positions) ∧
    (∀ (α : Type) (N : Nat) (s : BState α) (id : Nat),
      (SPMCb.pop N s id).1 = none → (SPMCb.pop N s id).2 = s) ∧
    (∀ (α : Type) (N K : Nat) (s : MBState α) (v : α),
      (MPMCb.push N K s v).1 = false → (MPMCb.push N K s v).2 = s) ∧
    (∀ (α : Type) (N : Nat) (moved : α → α) (s : MBState α) (id : Nat),
      (MPMCb.pop N moved s id).1 = none → (MPMCb.pop N moved s id).2 = s) := by
  refine ⟨?_, ?_, ?_, ?_, ?_, ?_, ?_, ?_, ?_, ?_, ?_, ?_⟩
  · intro α N s v h
    unfold SPSC.push at h ⊢
    by_cases hg : s.write_pos ≥ s.read_pos + N
    · rw [if_pos hg]
    · rw [if_neg hg] at h; simp at h
  · intro α N s h
    unfold SPSC.pop at h ⊢
    by_cases hg : s.read_pos ≥ s.write_pos
    · rw [if_pos hg]
    · rw [if_neg hg] at h; simp at h
  · intro α N s v h
    unfold MPSC.push at h ⊢
    by_cases hg : s.write_pos - s.read_pos ≥ N
    · rw [if_pos hg]
    · rw [if_neg hg] at h; simp at h
  · intro α N s h
    unfold MPSC.pop at h ⊢
    by_cases hg : s.read_pos ≥ s.write_pos
    · rw [if_pos hg]
    · rw [if_neg hg] at h; simp at h
  · intro α N s v h
    unfold SPMCu.push at h ⊢
    by_cases hg : s.write_pos ≥ s.read_pos + N
    · rw [if_pos hg]
    · rw [if_neg hg] at h; simp at h
  · intro α N s h
    unfold SPMCu.pop at h ⊢
    by_cases hg : s.read_pos ≥ s.write_pos
    · rw [if_pos hg]
    · rw [if_neg hg] at h; simp at h
  · intro α N s v h
    unfold MPMCu.push at h ⊢
    by_cases hg : s.write_pos - s.read_pos ≥ N
    · rw [if_pos hg]
    · rw [if_neg hg] at h; simp at h
  · intro α N s h
    unfold MPMCu.pop at h ⊢
    by_cases hg : s.read_pos ≥ s.write_pos
    · rw [if_pos hg]
    · rw [if_neg hg] at h; simp at h
  · intro α N K s v h
    unfold SPMCb.push at h ⊢
    by_cases hslow : s.write_pos ≥ s.min_read_cache + N
    · by_cases hfull : s.write_pos ≥ SPMCb.minUpTo s.read_positions K + N
      · rw [if_pos hslow]
        simp only [if_pos hfull]
        exact ⟨trivial, trivial, trivial⟩
      · rw [if_pos hslow] at h
        simp only [if_neg hfull] at h
        simp at h
    · rw [if_neg hslow] at h
      simp at h
  · intro α N s id h
    unfold SPMCb.pop at h ⊢
    by_cases hg : s.read_positions id ≥ s.write_pos
    · rw [if_pos hg]
    · rw [if_neg hg] at h; simp at h
  · intro α N K s v h
    unfold MPMCb.push at h ⊢
    by_cases hg : s.write_pos - SPMCb.minUpTo s.read_positions K ≥ N
    · rw [if_pos hg]
    · rw [if_neg hg] at h; simp at h
  · intro α N moved s id h
    unfold MPMCb.pop at h ⊢
    by_cases hg : s.read_positions id ≥ s.write_pos
    · rw [if_pos hg]
    · rw [if_neg hg] at h; simp at h

/-- Witness for C10: each failed-push clause applied to a concrete full
capacity-2 ring, and each empty-pop clause applied to a concrete empty
ring; in every case the state is untouched. -/
theorem C10_failure_atomicity_witness :
    ((SPSC.push 2 ⟨fun _ => (0 : Nat), 2, 0⟩ 5).2 =
      ⟨fun _ => (0 : Nat), 2, 0⟩) ∧
    ((SPSC.pop 2 ⟨fun _ => (0 : Nat), 0, 0⟩).2 =
      ⟨fun _ => (0 : Nat), 0, 0⟩) ∧
    ((MPSC.push 2 ⟨fun _ => (0 : Nat), 2, 0⟩ 5).2 =
      ⟨fun _ => (0 : Nat), 2, 0⟩) ∧
    ((MPSC.pop 2 ⟨fun _ => (0 : Nat), 0, 0⟩).2 =
      ⟨fun _ => (0 : Nat), 0, 0⟩) ∧
    ((SPMCu.push 2 ⟨fun _ => (0 : Nat), 2, 0⟩ 5).2 =
      ⟨fun _ => (0 : Nat), 2, 0⟩) ∧
    ((SPMCu.pop 2 ⟨fun _ => (0 : Nat), 0, 0⟩).2 =
      ⟨fun _ => (0 : Nat), 0, 0⟩) ∧
    ((MPMCu.push 2 ⟨fun _ => (0 : Nat), 2, 0⟩ 5).2 =
      ⟨fun _ => (0 : Nat), 2, 0⟩) ∧
    ((MPMCu.pop 2 ⟨fun _ => (0 : Nat), 0, 0⟩).2 =
      ⟨fun _ => (0 : Nat), 0, 0⟩) ∧
    ((SPMCb.push 2 1 ⟨fun _ => (0 : Nat), 2, fun _ => 0, 0⟩ 5).2.write_pos
      = 2) ∧
    ((SPMCb.pop 2 ⟨fun _ => (0 : Nat), 0, fun _ => 0, 0⟩ 0).2 =
      ⟨fun _ => (0 : Nat), 0, fun _ => 0, 0⟩) ∧
    ((MPMCb.push 2 1 ⟨fun _ => (0 : Nat), 2, fun _ => 0⟩ 5).2 =
      ⟨fun _ => (0 : Nat), 2, fun _ => 0⟩) ∧
    ((MPMCb.pop 2 (fun v => v) ⟨fun _ => (0 : Nat), 0, fun _ => 0⟩ 0).2 =
      ⟨fun _ => (0 : Nat), 0, fun _ => 0⟩) :=
  ⟨C10_failure_atomicity.1 Nat 2 ⟨fun _ => 0, 2, 0⟩ 5 (by decide),
    C10_failure_atomicity.2.1 Nat 2 ⟨fun _ => 0, 0, 0⟩ (by decide),
    C10_failure_atomicity.2.2.1 Nat 2 ⟨fun _ => 0, 2, 0⟩ 5 (by decide),
    C10_failure_atomicity.2.2.2.1 Nat 2 ⟨fun _ => 0, 0, 0⟩ (by decide),
    C10_failure_atomicity.2.2.2.2.1 Nat 2 ⟨fun _ => 0, 2, 0⟩ 5 (by decide),
    C10_failure_atomicity.2.2.2.2.2.1 Nat 2 ⟨fun _ => 0, 0, 0⟩ (by decide),
    C10_failure_atomicity.2.2.2.2.2.2.1 Nat 2 ⟨fun _ => 0, 2, 0⟩ 5
      (by decide),
    C10_failure_atomicity.2.2.2.2.2.2.2.1 Nat 2 ⟨fun _ => 0, 0, 0⟩
      (by decide),
    (C10_failure_atomicity.2.2.2.2.2.2.2.2.1 Nat 2 1
      ⟨fun _ => 0, 2, fun _ => 0, 0⟩ 5 (by decide)).2.1,
    C10_failure_atomicity.2.2.2.2.2.2.2.2.2.1 Nat 2
      ⟨fun _ => 0, 0, fun _ => 0, 0⟩ 0 (by decide),
    C10_failure_atomicity.2.2.2.2.2.2.2.2.2.2.1 Nat 2 1
      ⟨fun _ => 0, 2, fun _ => 0⟩ 5 (by decide),
    C10_failure_atomicity.2.2.2.2.2.2.2.2.2.2.2 Nat 2 (fun v => v)
      ⟨fun _ => 0, 0, fun _ => 0⟩ 0 (by decide)⟩

end Lockfree

